import Mathlib

/-!
Verification of the rectangle union-area engine of the shelf-monitoring
repository (`area_calculation/calculations.py` and
`area_calculation/area_calculation.py`).

Coordinates are modelled as rationals (the Python code uses IEEE floats on
which it performs only `+`, `-`, `*`, `/`, comparisons and `max`, so the
exact-arithmetic model is faithful on every input considered here).

* `merge_intervals`, `remove_interval`, `calculate_union_height`,
  `calculate_union_area_sweepline`, `is_rectangle_inside_shelves` embed the
  functions of `calculations.py` with the same names.
* `calculate_shelf_fill_percentage` embeds the pure arithmetic tail of
  `AreaCalculator.calculate_shelf_fill_percentage` (lines 146-156 of
  `area_calculation.py`): the part downstream of the object detector, as a
  function of the already-extracted object rectangles and the shelf list.
* Python's `list.sort` / `sorted` are stable sorts by a total
  (respectively, by the `key`-induced preorder) order; they are embedded by
  `List.insertionSort`, which is stable and sorts by the same relation, so
  it produces the identical list.
-/

namespace VoidShelf

/-- A Y-interval `(y1, y2)`, as the Python pair. -/
abbrev Interval := ℚ × ℚ

/-- A rectangle `(x1, y1, x2, y2)`, as the Python 4-tuple. -/
abbrev Rect := ℚ × ℚ × ℚ × ℚ

/-- A sweep event `(x, event_type, y1, y2)`; `event_type` is `1` for the left
edge of a rectangle and `-1` for the right edge, exactly as in the source. -/
abbrev Event := ℚ × ℤ × ℚ × ℚ

/-- Ordering used by `sorted(intervals, key=lambda x: x[0])`: compare the
lower bounds only. -/
def leLo (p q : Interval) : Prop := p.1 ≤ q.1

instance : DecidableRel leLo := fun p q => inferInstanceAs (Decidable (p.1 ≤ q.1))

instance : IsTotal Interval leLo := ⟨fun p q => le_total p.1 q.1⟩

instance : IsTrans Interval leLo := ⟨fun _ _ _ h h' => le_trans h h'⟩

/-- The body of the `for current in sorted_intervals[1:]` loop of
`merge_intervals`: `last` is `merged[-1]`, the only element the loop ever
reads or overwrites; elements before it are frozen. -/
def mergeLoop : Interval → List Interval → List Interval
  | last, [] => [last]
  | last, current :: rest =>
    if current.1 ≤ last.2 then mergeLoop (last.1, max last.2 current.2) rest
    else last :: mergeLoop current rest

/-- `merge_intervals` from `calculations.py`: stable-sort by lower bound,
then fold, merging `current` into the last merged interval whenever
`current[0] <= last[1]`. -/
def merge_intervals (intervals : List Interval) : List Interval :=
  match List.insertionSort leLo intervals with
  | [] => []
  | h :: t => mergeLoop h t

/-- The `if/elif` chain applied to one member `(y1, y2)` of the interval
list inside `remove_interval`; returns the pieces appended to `result`. -/
def removePieces (r : Interval) (e : Interval) : List Interval :=
  if e.1 ≥ r.1 ∧ e.2 ≤ r.2 then []
  else if e.2 ≤ r.1 ∨ e.1 ≥ r.2 then [e]
  else if e.1 < r.1 ∧ e.2 > r.2 then [(e.1, r.1), (r.2, e.2)]
  else if e.1 < r.1 ∧ e.2 > r.1 then [(e.1, r.1)]
  else if e.1 < r.2 ∧ e.2 > r.2 then [(r.2, e.2)]
  else []

/-- `remove_interval` from `calculations.py`. -/
def remove_interval (intervals : List Interval) (interval_to_remove : Interval) :
    List Interval :=
  match intervals with
  | [] => []
  | _ => merge_intervals (intervals.flatMap (removePieces interval_to_remove))

/-- `calculate_union_height` from `calculations.py`. -/
def calculate_union_height (intervals : List Interval) : ℚ :=
  if intervals = [] then 0
  else ((merge_intervals intervals).map (fun p => p.2 - p.1)).sum

/-- Lexicographic order on event 4-tuples: Python's `events.sort()`. -/
def eventLE (a b : Event) : Prop :=
  a.1 < b.1 ∨ (a.1 = b.1 ∧
    (a.2.1 < b.2.1 ∨ (a.2.1 = b.2.1 ∧
      (a.2.2.1 < b.2.2.1 ∨ (a.2.2.1 = b.2.2.1 ∧ a.2.2.2 ≤ b.2.2.2)))))

instance : DecidableRel eventLE := fun a b => by
  unfold eventLE; infer_instance

instance : IsTotal Event eventLE := by
  constructor
  intro a b
  unfold eventLE
  rcases lt_trichotomy a.1 b.1 with h | h | h
  · exact Or.inl (Or.inl h)
  · rcases lt_trichotomy a.2.1 b.2.1 with h2 | h2 | h2
    · exact Or.inl (Or.inr ⟨h, Or.inl h2⟩)
    · rcases lt_trichotomy a.2.2.1 b.2.2.1 with h3 | h3 | h3
      · exact Or.inl (Or.inr ⟨h, Or.inr ⟨h2, Or.inl h3⟩⟩)
      · rcases le_total a.2.2.2 b.2.2.2 with h4 | h4
        · exact Or.inl (Or.inr ⟨h, Or.inr ⟨h2, Or.inr ⟨h3, h4⟩⟩⟩)
        · exact Or.inr (Or.inr ⟨h.symm, Or.inr ⟨h2.symm, Or.inr ⟨h3.symm, h4⟩⟩⟩)
      · exact Or.inr (Or.inr ⟨h.symm, Or.inr ⟨h2.symm, Or.inl h3⟩⟩)
    · exact Or.inr (Or.inr ⟨h.symm, Or.inl h2⟩)
  · exact Or.inr (Or.inl h)

instance : IsTrans Event eventLE := by
  constructor
  intro a b c hab hbc
  unfold eventLE at *
  rcases hab with h1 | ⟨e1, h1⟩ <;> rcases hbc with h2 | ⟨e2, h2⟩
  · exact Or.inl (lt_trans h1 h2)
  · exact Or.inl (e2 ▸ h1)
  · exact Or.inl (e1 ▸ h2)
  · refine Or.inr ⟨e1.trans e2, ?_⟩
    rcases h1 with h1 | ⟨f1, h1⟩ <;> rcases h2 with h2 | ⟨f2, h2⟩
    · exact Or.inl (lt_trans h1 h2)
    · exact Or.inl (f2 ▸ h1)
    · exact Or.inl (f1 ▸ h2)
    · refine Or.inr ⟨f1.trans f2, ?_⟩
      rcases h1 with h1 | ⟨g1, h1⟩ <;> rcases h2 with h2 | ⟨g2, h2⟩
      · exact Or.inl (lt_trans h1 h2)
      · exact Or.inl (g2 ▸ h1)
      · exact Or.inl (g1 ▸ h2)
      · exact Or.inr ⟨g1.trans g2, le_trans h1 h2⟩

instance : IsAntisymm Event eventLE := by
  constructor
  rintro ⟨a1, a2, a3, a4⟩ ⟨b1, b2, b3, b4⟩ hab hba
  unfold eventLE at hab hba
  simp only at hab hba
  rcases hab with h1 | ⟨e1, h1⟩ <;> rcases hba with h1' | ⟨e1', h1'⟩
  · exact absurd h1' (lt_asymm h1)
  · exact absurd (e1' ▸ h1) (lt_irrefl b1)
  · exact absurd (e1 ▸ h1') (lt_irrefl a1)
  · subst e1
    rcases h1 with h2 | ⟨e2, h2⟩ <;> rcases h1' with h2' | ⟨e2', h2'⟩
    · exact absurd h2' (lt_asymm h2)
    · exact absurd (e2' ▸ h2) (lt_irrefl b2)
    · exact absurd (e2 ▸ h2') (lt_irrefl a2)
    · subst e2
      rcases h2 with h3 | ⟨e3, h3⟩ <;> rcases h2' with h3' | ⟨e3', h3'⟩
      · exact absurd h3' (lt_asymm h3)
      · exact absurd (e3' ▸ h3) (lt_irrefl b3)
      · exact absurd (e3 ▸ h3') (lt_irrefl a3)
      · subst e3
        rw [le_antisymm h3 h3']

/-- The body of the `for x, event_type, y1, y2 in events` loop of
`calculate_union_area_sweepline`, with explicit state
`(active_intervals, total_area, prev_x)`. -/
def sweepLoop : List Event → List Interval → ℚ → Option ℚ → ℚ
  | [], _, total_area, _ => total_area
  | (x, event_type, y1, y2) :: rest, active_intervals, total_area, prev_x =>
    let total' :=
      match prev_x with
      | some px =>
        if px < x ∧ active_intervals ≠ [] then
          total_area + calculate_union_height active_intervals * (x - px)
        else total_area
      | none => total_area
    let active' :=
      if event_type = 1 then merge_intervals (active_intervals ++ [(y1, y2)])
      else remove_interval active_intervals (y1, y2)
    sweepLoop rest active' total' (some x)

/-- The two events generated for one rectangle. -/
def rectEvents (r : Rect) : List Event :=
  [(r.1, (1 : ℤ), r.2.1, r.2.2.2), (r.2.2.1, (-1 : ℤ), r.2.1, r.2.2.2)]

/-- `calculate_union_area_sweepline` from `calculations.py`. -/
def calculate_union_area_sweepline (rectangles : List Rect) : ℚ :=
  if rectangles = [] then 0
  else
    sweepLoop (List.insertionSort eventLE (rectangles.flatMap rectEvents)) [] 0 none

/-- `is_rectangle_inside_shelves` from `calculations.py`: the early-return
`for` loop is `List.any`. -/
def is_rectangle_inside_shelves (rect : Rect) (shelves : List Rect) : Bool :=
  shelves.any (fun s =>
    let center_x := (rect.1 + rect.2.2.1) / 2
    let center_y := (rect.2.1 + rect.2.2.2) / 2
    decide (s.1 ≤ center_x ∧ center_x ≤ s.2.2.1 ∧
      s.2.1 ≤ center_y ∧ center_y ≤ s.2.2.2))

/-- The arithmetic tail of `AreaCalculator.calculate_shelf_fill_percentage`
(lines 146-156 of `area_calculation.py`), as a function of the extracted
object rectangles and the shelf list; returns
`(total_objects_area, shelf_total_area, fill_percentage)`. -/
def calculate_shelf_fill_percentage (objects_rectangles : List Rect)
    (shelf_coordinates : List Rect) : ℚ × ℚ × ℚ :=
  let total_objects_area := calculate_union_area_sweepline objects_rectangles
  let shelf_total_area :=
    (shelf_coordinates.map (fun r => (r.2.2.1 - r.1) * (r.2.2.2 - r.2.1))).sum
  let fill_percentage :=
    if 0 < shelf_total_area then total_objects_area / shelf_total_area * 100
    else 0
  (total_objects_area, shelf_total_area, fill_percentage)

/-- C2: the claim states that `calculate_union_area_sweepline` on the
L-shaped overlap `[(0,0,10,10), (5,5,15,15)]` returns `175 = 100+100-25`.
The code returns `150`: at the right edge `x = 10` of the first rectangle,
`remove_interval` deletes the whole Y-range `[0,10]` from the merged active
interval `[0,15]`, although the still-active second rectangle covers
`[5,15]`; the strip `x ∈ [10,15]` is then billed height `5` instead of
`10`. -/
theorem claim_C2_L_overlap_returns_150 :
    calculate_union_area_sweepline [(0, 0, 10, 10), (5, 5, 15, 15)] = 150 ∧
      (150 : ℚ) ≠ 175 := by
  constructor
  · norm_num [calculate_union_area_sweepline, sweepLoop, merge_intervals, remove_interval,
      calculate_union_height, removePieces, mergeLoop, leLo, eventLE, rectEvents,
      List.insertionSort, List.orderedInsert]
    simp
  · norm_num

/-- C1: the claim states that `calculate_union_area_sweepline` always
returns the true union area. On `[(0,0,4,4), (2,2,6,6)]` the true union
area is `16 + 16 - 4 = 28` (inclusion-exclusion for two squares whose
intersection is the square `[2,4] × [2,4]`), but the code returns `24`,
for the same reason as in `claim_C2_L_overlap_returns_150`: removal of a
finished rectangle's Y-range also deletes coverage owed to the still
active rectangle. -/
theorem claim_C1_sweepline_not_true_union_area :
    calculate_union_area_sweepline [(0, 0, 4, 4), (2, 2, 6, 6)] = 24 ∧
      (24 : ℚ) ≠ 28 := by
  constructor
  · norm_num [calculate_union_area_sweepline, sweepLoop, merge_intervals, remove_interval,
      calculate_union_height, removePieces, mergeLoop, leLo, eventLE, rectEvents,
      List.insertionSort, List.orderedInsert]
    simp
  · norm_num

/-- C3: the claim states that appending a rectangle never decreases the
computed union area. Appending `(2,0,3,10)` (a rectangle entirely inside
`(0,0,10,10)`) drops the result from `100` to `30`: when the inner
rectangle leaves at `x = 3`, `remove_interval` erases the whole shared
Y-range `[0,10]` from the active set, so the strip `x ∈ [3,10]`
contributes nothing. -/
theorem claim_C3_adding_rectangle_decreases_area :
    calculate_union_area_sweepline [(0, 0, 10, 10)] = 100 ∧
      calculate_union_area_sweepline [(0, 0, 10, 10), (2, 0, 3, 10)] = 30 ∧
      (30 : ℚ) < 100 := by
  refine ⟨?_, ?_, by norm_num⟩
  · norm_num [calculate_union_area_sweepline, sweepLoop, merge_intervals, remove_interval,
      calculate_union_height, removePieces, mergeLoop, leLo, eventLE, rectEvents,
      List.insertionSort, List.orderedInsert]
  · norm_num [calculate_union_area_sweepline, sweepLoop, merge_intervals, remove_interval,
      calculate_union_height, removePieces, mergeLoop, leLo, eventLE, rectEvents,
      List.insertionSort, List.orderedInsert]
    simp

/-- C4: the claim states degenerate rectangles contribute zero area, i.e.
deleting them leaves the result unchanged. A zero-width rectangle
`(0,5,0,10)` changes the result for `[(0,0,1,1)]` from `1` to `6`: its two
events share `x = 0` and Python's tuple sort puts the Leave event
(`event_type = -1`) before the Enter event (`event_type = 1`), so the
interval `(5,10)` is inserted after its own removal was processed and
stays active forever. -/
theorem claim_C4_zero_width_rectangle_changes_area :
    calculate_union_area_sweepline [(0, 0, 1, 1), (0, 5, 0, 10)] = 6 ∧
      calculate_union_area_sweepline [(0, 0, 1, 1)] = 1 ∧ (6 : ℚ) ≠ 1 := by
  refine ⟨?_, ?_, by norm_num⟩
  · norm_num [calculate_union_area_sweepline, sweepLoop, merge_intervals, remove_interval,
      calculate_union_height, removePieces, mergeLoop, leLo, eventLE, rectEvents,
      List.insertionSort, List.orderedInsert]
    simp
  · norm_num [calculate_union_area_sweepline, sweepLoop, merge_intervals, remove_interval,
      calculate_union_height, removePieces, mergeLoop, leLo, eventLE, rectEvents,
      List.insertionSort, List.orderedInsert]

/-- C8: `is_rectangle_inside_shelves rect shelves` is true exactly when the
centroid of `rect` lies in the closed bounds of some shelf; moreover the
rectangle `(40,40,60,60)` is included for shelf list `[(0,0,100,100)]` and
excluded for `[(60,60,100,100)]`. -/
theorem claim_C8_containment_is_centroid_in_some_shelf :
    (∀ (rect : Rect) (shelves : List Rect),
      is_rectangle_inside_shelves rect shelves = true ↔
        ∃ s ∈ shelves,
          s.1 ≤ (rect.1 + rect.2.2.1) / 2 ∧ (rect.1 + rect.2.2.1) / 2 ≤ s.2.2.1 ∧
          s.2.1 ≤ (rect.2.1 + rect.2.2.2) / 2 ∧ (rect.2.1 + rect.2.2.2) / 2 ≤ s.2.2.2) ∧
    is_rectangle_inside_shelves (40, 40, 60, 60) [(0, 0, 100, 100)] = true ∧
    is_rectangle_inside_shelves (40, 40, 60, 60) [(60, 60, 100, 100)] = false := by
  refine ⟨?_, ?_, ?_⟩
  · intro rect shelves
    simp [is_rectangle_inside_shelves, List.any_eq_true]
  · norm_num [is_rectangle_inside_shelves]
  · norm_num [is_rectangle_inside_shelves]

/-- C10: with an empty shelf list the containment filter excludes every
rectangle; the whole-image fallback lives in the caller
(`AreaCalculator.calculate_shelf_fill_percentage`), not here. -/
theorem claim_C10_empty_shelf_list_excludes_all (rect : Rect) :
    is_rectangle_inside_shelves rect [] = false := rfl

/-- C6: the computed value is invariant under any permutation of the input
rectangle list: the event list of a permuted input is a permutation of the
original event list, and sorting by the total lexicographic tuple order
maps permutation-equivalent lists to the same sorted list. -/
theorem claim_C6_permutation_invariant (rs rs' : List Rect) (h : rs.Perm rs') :
    calculate_union_area_sweepline rs = calculate_union_area_sweepline rs' := by
  unfold calculate_union_area_sweepline
  have hev : (rs.flatMap rectEvents).Perm (rs'.flatMap rectEvents) :=
    h.flatMap_right rectEvents
  have hsort : List.insertionSort eventLE (rs.flatMap rectEvents) =
      List.insertionSort eventLE (rs'.flatMap rectEvents) :=
    List.eq_of_perm_of_sorted
      ((List.perm_insertionSort _ _).trans (hev.trans (List.perm_insertionSort _ _).symm))
      (List.sorted_insertionSort _ _) (List.sorted_insertionSort _ _)
  by_cases hrs : rs = []
  · subst hrs
    rw [h.symm.eq_nil]
  · have hrs' : rs' ≠ [] := fun he => hrs (h.trans (he ▸ List.Perm.refl _)).eq_nil
    rw [if_neg hrs, if_neg hrs', hsort]

/-- C6 witness: the invariance applied to a concrete two-element list and
its reversal. -/
theorem claim_C6_witness :
    calculate_union_area_sweepline [((0 : ℚ), (0 : ℚ), (1 : ℚ), (1 : ℚ)), (2, 2, 3, 3)] =
      calculate_union_area_sweepline [((2 : ℚ), (2 : ℚ), (3 : ℚ), (3 : ℚ)), (0, 0, 1, 1)] :=
  claim_C6_permutation_invariant _ _ (List.Perm.swap _ _ _)

/-- C7: listing the same rectangle twice yields exactly the single
rectangle's area. Both Enter events precede both Leave events (or all four
events share one `x` when `x1 = x2`), the two copies of the Y-interval
merge into one, and the first Leave removes an interval the second Leave
no longer finds, so nothing is double-counted. -/
theorem claim_C7_duplicate_rectangle_single_area (x1 y1 x2 y2 : ℚ)
    (hx : x1 ≤ x2) (hy : y1 ≤ y2) :
    calculate_union_area_sweepline [(x1, y1, x2, y2), (x1, y1, x2, y2)] =
      (x2 - x1) * (y2 - y1) := by
  unfold calculate_union_area_sweepline
  rw [if_neg (List.cons_ne_nil _ _)]
  rcases eq_or_lt_of_le hx with heq | hlt
  · subst heq
    norm_num [sweepLoop, merge_intervals, remove_interval,
      calculate_union_height, removePieces, mergeLoop, leLo, eventLE, rectEvents,
      List.insertionSort, List.orderedInsert, hy]
  · norm_num [sweepLoop, merge_intervals, remove_interval,
      calculate_union_height, removePieces, mergeLoop, leLo, eventLE, rectEvents,
      List.insertionSort, List.orderedInsert, hy, hlt, hlt.ne, hlt.ne', lt_asymm hlt]
    ring

/-- C7 witness: the duplicate-rectangle law at the rectangle (0,0,2,3). -/
theorem claim_C7_witness :
    calculate_union_area_sweepline [((0 : ℚ), (0 : ℚ), (2 : ℚ), (3 : ℚ)), (0, 0, 2, 3)] =
      (2 - 0) * (3 - 0) :=
  claim_C7_duplicate_rectangle_single_area 0 0 2 3 (by norm_num) (by norm_num)

/-! Validity (`lo ≤ hi`) is preserved by every interval operation; it makes
`calculate_union_height` nonnegative and hence the accumulated area and the
fill percentage nonnegative. -/

theorem mergeLoop_valid (last : Interval) (rest : List Interval)
    (h : last.1 ≤ last.2) (hr : ∀ p ∈ rest, p.1 ≤ p.2) :
    ∀ p ∈ mergeLoop last rest, p.1 ≤ p.2 := by
  induction rest generalizing last with
  | nil =>
    intro p hp
    simp only [mergeLoop, List.mem_singleton] at hp
    exact hp ▸ h
  | cons cur rest ih =>
    intro p hp
    rw [mergeLoop] at hp
    split_ifs at hp with hc
    · exact ih (last.1, max last.2 cur.2) (le_trans h (le_max_left _ _))
        (fun q hq => hr q (List.mem_cons_of_mem _ hq)) p hp
    · rcases List.mem_cons.mp hp with rfl | hp'
      · exact h
      · exact ih cur (hr cur (List.mem_cons_self _ _)) (fun q hq => hr q (List.mem_cons_of_mem _ hq)) p hp'

theorem merge_intervals_valid (l : List Interval) (hl : ∀ p ∈ l, p.1 ≤ p.2) :
    ∀ p ∈ merge_intervals l, p.1 ≤ p.2 := by
  unfold merge_intervals
  cases hs : List.insertionSort leLo l with
  | nil => simp
  | cons h t =>
    have hmem : ∀ p ∈ h :: t, p.1 ≤ p.2 := by
      intro p hp
      exact hl p ((List.perm_insertionSort leLo l).mem_iff.mp (hs ▸ hp))
    exact mergeLoop_valid h t (hmem h (List.mem_cons_self _ _))
      (fun q hq => hmem q (List.mem_cons_of_mem _ hq))

theorem removePieces_valid (r e : Interval) (he : e.1 ≤ e.2) :
    ∀ p ∈ removePieces r e, p.1 ≤ p.2 := by
  unfold removePieces
  split_ifs with h1 h2 h3 h4 h5 <;> intro p hp <;> simp at hp
  · exact hp ▸ he
  · obtain rfl | rfl := hp
    · exact le_of_lt h3.1
    · exact le_of_lt h3.2
  · exact hp ▸ le_of_lt h4.1
  · exact hp ▸ le_of_lt h5.2

theorem remove_interval_valid (l : List Interval) (r : Interval)
    (hl : ∀ p ∈ l, p.1 ≤ p.2) : ∀ p ∈ remove_interval l r, p.1 ≤ p.2 := by
  cases l with
  | nil => simp [remove_interval]
  | cons a t =>
    show ∀ p ∈ merge_intervals ((a :: t).flatMap (removePieces r)), p.1 ≤ p.2
    refine merge_intervals_valid _ ?_
    intro p hp
    rcases List.mem_flatMap.mp hp with ⟨e, he, hpe⟩
    exact removePieces_valid r e (hl e he) p hpe

theorem calculate_union_height_nonneg (l : List Interval)
    (hl : ∀ p ∈ l, p.1 ≤ p.2) : 0 ≤ calculate_union_height l := by
  unfold calculate_union_height
  split_ifs
  · exact le_refl 0
  · refine List.sum_nonneg ?_
    intro q hq
    rcases List.mem_map.mp hq with ⟨p, hp, rfl⟩
    have := merge_intervals_valid l hl p hp
    linarith

theorem sweepLoop_le (events : List Event) (active : List Interval)
    (total : ℚ) (px : Option ℚ)
    (hev : ∀ e ∈ events, e.2.2.1 ≤ e.2.2.2) (hact : ∀ p ∈ active, p.1 ≤ p.2) :
    total ≤ sweepLoop events active total px := by
  induction events generalizing active total px with
  | nil => exact le_refl total
  | cons e rest ih =>
    obtain ⟨x, t, y1, y2⟩ := e
    have hy : y1 ≤ y2 := by simpa using hev (x, t, y1, y2) (List.mem_cons_self _ _)
    have hevr : ∀ e ∈ rest, e.2.2.1 ≤ e.2.2.2 :=
      fun e he => hev e (List.mem_cons_of_mem _ he)
    simp only [sweepLoop]
    have hact' : ∀ p ∈ (if t = 1 then merge_intervals (active ++ [(y1, y2)])
        else remove_interval active (y1, y2)), p.1 ≤ p.2 := by
      split_ifs
      · refine merge_intervals_valid _ ?_
        intro p hp
        rcases List.mem_append.mp hp with h | h
        · exact hact p h
        · simp only [List.mem_singleton] at h
          exact h ▸ hy
      · exact remove_interval_valid _ _ hact
    refine le_trans ?_ (ih _ _ _ hevr hact')
    cases px with
    | none => exact le_refl total
    | some p =>
      dsimp only
      split_ifs with hc
      · have h0 : 0 ≤ calculate_union_height active * (x - p) :=
          mul_nonneg (calculate_union_height_nonneg _ hact) (by linarith [hc.1])
        linarith
      · exact le_refl total

theorem calculate_union_area_sweepline_nonneg (rs : List Rect)
    (h : ∀ r ∈ rs, r.1 ≤ r.2.2.1 ∧ r.2.1 ≤ r.2.2.2) :
    0 ≤ calculate_union_area_sweepline rs := by
  unfold calculate_union_area_sweepline
  split_ifs
  · exact le_refl 0
  · refine sweepLoop_le _ _ _ _ ?_ (by simp)
    intro e he
    rw [List.mem_insertionSort] at he
    rcases List.mem_flatMap.mp he with ⟨r, hr, her⟩
    simp only [rectEvents, List.mem_cons, List.not_mem_nil, or_false] at her
    rcases her with h1 | h1 <;> subst h1 <;> exact (h r hr).2

/-- C9: in the fill-percentage computation, the returned percentage is
`100 × total_objects_area / shelf_total_area` whenever the shelf area is
positive, is exactly `0` when the shelf area is `0` (a defined value, not
an error), and is nonnegative under the `x1 ≤ x2`, `y1 ≤ y2` rectangle
preconditions. -/
theorem claim_C9_fill_percentage_policy (objs shelves : List Rect)
    (hobjs : ∀ r ∈ objs, r.1 ≤ r.2.2.1 ∧ r.2.1 ≤ r.2.2.2)
    (_hsh : ∀ r ∈ shelves, r.1 ≤ r.2.2.1 ∧ r.2.1 ≤ r.2.2.2) :
    (0 < (calculate_shelf_fill_percentage objs shelves).2.1 →
      (calculate_shelf_fill_percentage objs shelves).2.2 =
        100 * (calculate_shelf_fill_percentage objs shelves).1 /
          (calculate_shelf_fill_percentage objs shelves).2.1) ∧
    ((calculate_shelf_fill_percentage objs shelves).2.1 = 0 →
      (calculate_shelf_fill_percentage objs shelves).2.2 = 0) ∧
    0 ≤ (calculate_shelf_fill_percentage objs shelves).2.2 := by
  have ht : 0 ≤ calculate_union_area_sweepline objs :=
    calculate_union_area_sweepline_nonneg objs hobjs
  unfold calculate_shelf_fill_percentage
  dsimp only
  refine ⟨?_, ?_, ?_⟩
  · intro hpos
    rw [if_pos hpos]
    ring
  · intro h0
    rw [if_neg (by rw [h0]; exact lt_irrefl 0)]
  · split_ifs with hpos
    · exact mul_nonneg (div_nonneg ht (le_of_lt hpos)) (by norm_num)
    · exact le_refl 0

/-- C9 witness: the policy applied to one 10x10 object on one 10x10 shelf. -/
theorem claim_C9_witness :
    (0 < (calculate_shelf_fill_percentage [((0 : ℚ), (0 : ℚ), (10 : ℚ), (10 : ℚ))]
        [((0 : ℚ), (0 : ℚ), (10 : ℚ), (10 : ℚ))]).2.1 →
      (calculate_shelf_fill_percentage [((0 : ℚ), (0 : ℚ), (10 : ℚ), (10 : ℚ))]
        [((0 : ℚ), (0 : ℚ), (10 : ℚ), (10 : ℚ))]).2.2 =
        100 * (calculate_shelf_fill_percentage [((0 : ℚ), (0 : ℚ), (10 : ℚ), (10 : ℚ))]
          [((0 : ℚ), (0 : ℚ), (10 : ℚ), (10 : ℚ))]).1 /
          (calculate_shelf_fill_percentage [((0 : ℚ), (0 : ℚ), (10 : ℚ), (10 : ℚ))]
            [((0 : ℚ), (0 : ℚ), (10 : ℚ), (10 : ℚ))]).2.1) ∧
    ((calculate_shelf_fill_percentage [((0 : ℚ), (0 : ℚ), (10 : ℚ), (10 : ℚ))]
        [((0 : ℚ), (0 : ℚ), (10 : ℚ), (10 : ℚ))]).2.1 = 0 →
      (calculate_shelf_fill_percentage [((0 : ℚ), (0 : ℚ), (10 : ℚ), (10 : ℚ))]
        [((0 : ℚ), (0 : ℚ), (10 : ℚ), (10 : ℚ))]).2.2 = 0) ∧
    0 ≤ (calculate_shelf_fill_percentage [((0 : ℚ), (0 : ℚ), (10 : ℚ), (10 : ℚ))]
        [((0 : ℚ), (0 : ℚ), (10 : ℚ), (10 : ℚ))]).2.2 :=
  claim_C9_fill_percentage_policy _ _ (by norm_num) (by norm_num)

/-! Covered point-sets.  An interval list covers the union of its half-open
real intervals `[lo, hi)`.  The half-open reading is the one the code's
comparisons implement: `merge_intervals` merges touching intervals
(`current[0] <= last[1]`) and `remove_interval` treats an interval whose
upper end equals the removed lower end (`y2 <= y1_remove`) as fully
outside, which are exactly the union/difference laws of `[lo, hi)` sets. -/

/-- Set of real points covered by a list of Y-intervals, half-open. -/
def covered (l : List Interval) : Set ℝ :=
  ⋃ p ∈ l, Set.Ico (p.1 : ℝ) (p.2 : ℝ)

theorem mem_covered {x : ℝ} {l : List Interval} :
    x ∈ covered l ↔ ∃ p, p ∈ l ∧ (p.1 : ℝ) ≤ x ∧ x < (p.2 : ℝ) := by
  unfold covered
  simp only [Set.mem_iUnion, Set.mem_Ico, exists_prop]

theorem covered_nil : covered [] = ∅ := by
  simp [covered]

theorem covered_cons (p : Interval) (l : List Interval) :
    covered (p :: l) = Set.Ico (p.1 : ℝ) (p.2 : ℝ) ∪ covered l := by
  ext x
  simp only [Set.mem_union, Set.mem_Ico]
  constructor
  · intro hx
    rcases mem_covered.mp hx with ⟨q, hq, h1, h2⟩
    rcases List.mem_cons.mp hq with rfl | hq'
    · exact Or.inl ⟨h1, h2⟩
    · exact Or.inr (mem_covered.mpr ⟨q, hq', h1, h2⟩)
  · rintro (⟨h1, h2⟩ | hx)
    · exact mem_covered.mpr ⟨p, List.mem_cons_self _ _, h1, h2⟩
    · rcases mem_covered.mp hx with ⟨q, hq, h1, h2⟩
      exact mem_covered.mpr ⟨q, List.mem_cons_of_mem _ hq, h1, h2⟩

theorem covered_append (l l' : List Interval) :
    covered (l ++ l') = covered l ∪ covered l' := by
  induction l with
  | nil => simp [covered_nil]
  | cons p t ih => rw [List.cons_append, covered_cons, covered_cons, ih, Set.union_assoc]

theorem covered_perm {l l' : List Interval} (h : l.Perm l') : covered l = covered l' := by
  ext x
  rw [mem_covered, mem_covered]
  constructor <;> rintro ⟨p, hp, hx⟩
  · exact ⟨p, h.mem_iff.mp hp, hx⟩
  · exact ⟨p, h.mem_iff.mpr hp, hx⟩

theorem covered_measurable (l : List Interval) : MeasurableSet (covered l) := by
  induction l with
  | nil => rw [covered_nil]; exact MeasurableSet.empty
  | cons p t ih => rw [covered_cons]; exact measurableSet_Ico.union ih

theorem Ico_union_Ico_of_le {a b c d : ℝ} (hac : a ≤ c) (hcb : c ≤ b) :
    Set.Ico a b ∪ Set.Ico c d = Set.Ico a (max b d) := by
  ext x
  simp only [Set.mem_union, Set.mem_Ico, lt_max_iff]
  constructor
  · rintro (⟨h1, h2⟩ | ⟨h1, h2⟩)
    · exact ⟨h1, Or.inl h2⟩
    · exact ⟨le_trans hac h1, Or.inr h2⟩
  · rintro ⟨h1, h2 | h2⟩
    · exact Or.inl ⟨h1, h2⟩
    · rcases lt_or_le x b with hb | hb
      · exact Or.inl ⟨h1, hb⟩
      · exact Or.inr ⟨le_trans hcb hb, h2⟩

theorem mergeLoop_covered (last : Interval) (rest : List Interval)
    (h : List.Pairwise leLo (last :: rest)) :
    covered (mergeLoop last rest) =
      Set.Ico (last.1 : ℝ) (last.2 : ℝ) ∪ covered rest := by
  induction rest generalizing last with
  | nil => rw [mergeLoop, covered_cons, covered_nil]
  | cons cur rest ih =>
    rw [mergeLoop]
    rcases List.pairwise_cons.mp h with ⟨hlast, htail⟩
    split_ifs with hc
    · have hpair : List.Pairwise leLo ((last.1, max last.2 cur.2) :: rest) :=
        List.pairwise_cons.mpr
          ⟨fun q hq => hlast q (List.mem_cons_of_mem _ hq),
            (List.pairwise_cons.mp htail).2⟩
      rw [ih _ hpair, covered_cons]
      have hcast : ((max last.2 cur.2 : ℚ) : ℝ) = max (last.2 : ℝ) (cur.2 : ℝ) := by
        push_cast
        rfl
      rw [show ((last.1, max last.2 cur.2).1 : ℝ) = (last.1 : ℝ) from rfl,
        show (((last.1, max last.2 cur.2).2 : ℚ) : ℝ) = ((max last.2 cur.2 : ℚ) : ℝ) from rfl,
        hcast, ← Ico_union_Ico_of_le (show (last.1 : ℝ) ≤ (cur.1 : ℝ) by
          exact_mod_cast hlast cur (List.mem_cons_self _ _))
          (show ((cur.1 : ℚ) : ℝ) ≤ (last.2 : ℝ) by exact_mod_cast hc),
        Set.union_assoc]
    · rw [covered_cons, ih cur htail, covered_cons]

theorem merge_intervals_covered (l : List Interval) :
    covered (merge_intervals l) = covered l := by
  unfold merge_intervals
  cases hs : List.insertionSort leLo l with
  | nil =>
    have hp := List.perm_insertionSort leLo l
    rw [hs] at hp
    rw [hp.symm.eq_nil]
  | cons h t =>
    have hsorted : List.Pairwise leLo (h :: t) := hs ▸ List.sorted_insertionSort leLo l
    rw [mergeLoop_covered h t hsorted, ← covered_cons, ← hs]
    exact covered_perm (List.perm_insertionSort leLo l)

theorem mergeLoop_lo_le (last : Interval) (rest : List Interval)
    (h : List.Pairwise leLo (last :: rest)) :
    ∀ q ∈ mergeLoop last rest, last.1 ≤ q.1 := by
  induction rest generalizing last with
  | nil =>
    intro q hq
    simp only [mergeLoop, List.mem_singleton] at hq
    exact hq ▸ le_refl _
  | cons cur rest ih =>
    intro q hq
    rw [mergeLoop] at hq
    rcases List.pairwise_cons.mp h with ⟨hlast, htail⟩
    split_ifs at hq with hc
    · have hpair : List.Pairwise leLo ((last.1, max last.2 cur.2) :: rest) :=
        List.pairwise_cons.mpr
          ⟨fun q hq => hlast q (List.mem_cons_of_mem _ hq),
            (List.pairwise_cons.mp htail).2⟩
      exact ih _ hpair q hq
    · rcases List.mem_cons.mp hq with rfl | hq'
      · exact le_refl _
      · exact le_trans (hlast cur (List.mem_cons_self _ _)) (ih cur htail q hq')

theorem mergeLoop_sep (last : Interval) (rest : List Interval)
    (h : List.Pairwise leLo (last :: rest)) :
    List.Pairwise (fun p q : Interval => p.2 < q.1) (mergeLoop last rest) := by
  induction rest generalizing last with
  | nil => simp [mergeLoop]
  | cons cur rest ih =>
    rw [mergeLoop]
    rcases List.pairwise_cons.mp h with ⟨hlast, htail⟩
    split_ifs with hc
    · exact ih _ (List.pairwise_cons.mpr
        ⟨fun q hq => hlast q (List.mem_cons_of_mem _ hq),
          (List.pairwise_cons.mp htail).2⟩)
    · refine List.pairwise_cons.mpr ⟨?_, ih cur htail⟩
      intro q hq
      exact lt_of_lt_of_le (lt_of_not_le hc) (mergeLoop_lo_le cur rest htail q hq)

theorem merge_intervals_sep (l : List Interval) :
    List.Pairwise (fun p q : Interval => p.2 < q.1) (merge_intervals l) := by
  unfold merge_intervals
  cases hs : List.insertionSort leLo l with
  | nil => simp
  | cons h t => exact mergeLoop_sep h t (hs ▸ List.sorted_insertionSort leLo l)

theorem volume_covered_sep (l : List Interval)
    (hsep : List.Pairwise (fun p q : Interval => p.2 < q.1) l)
    (hv : ∀ p ∈ l, p.1 ≤ p.2) :
    MeasureTheory.volume (covered l) =
      ENNReal.ofReal (((l.map fun p => p.2 - p.1).sum : ℚ) : ℝ) := by
  induction l with
  | nil => simp [covered_nil]
  | cons p t ih =>
    rcases List.pairwise_cons.mp hsep with ⟨hp, htsep⟩
    have hvp : p.1 ≤ p.2 := hv p (List.mem_cons_self _ _)
    have hvt : ∀ q ∈ t, q.1 ≤ q.2 := fun q hq => hv q (List.mem_cons_of_mem _ hq)
    rw [covered_cons]
    have hdisj : Disjoint (Set.Ico (p.1 : ℝ) (p.2 : ℝ)) (covered t) := by
      rw [Set.disjoint_left]
      intro x hx hxc
      rcases mem_covered.mp hxc with ⟨q, hq, hq1, _⟩
      have hlt : (p.2 : ℝ) < (q.1 : ℝ) := by exact_mod_cast hp q hq
      have hxlt : x < (p.2 : ℝ) := hx.2
      linarith
    rw [MeasureTheory.measure_union hdisj (covered_measurable t), Real.volume_Ico,
      ih htsep hvt]
    have h1 : (0 : ℝ) ≤ (p.2 : ℝ) - (p.1 : ℝ) := by
      have : (p.1 : ℝ) ≤ (p.2 : ℝ) := by exact_mod_cast hvp
      linarith
    have h2q : (0 : ℚ) ≤ (t.map fun p => p.2 - p.1).sum := by
      refine List.sum_nonneg ?_
      intro q hq
      rcases List.mem_map.mp hq with ⟨u, hu, rfl⟩
      linarith [hvt u hu]
    have h2 : (0 : ℝ) ≤ (((t.map fun p => p.2 - p.1).sum : ℚ) : ℝ) := by exact_mod_cast h2q
    rw [← ENNReal.ofReal_add h1 h2]
    congr 1
    rw [List.map_cons, List.sum_cons]
    push_cast
    ring

theorem volume_covered_eq_height (l : List Interval) (hv : ∀ p ∈ l, p.1 ≤ p.2) :
    MeasureTheory.volume (covered l) =
      ENNReal.ofReal ((calculate_union_height l : ℚ) : ℝ) := by
  unfold calculate_union_height
  split_ifs with hnil
  · subst hnil
    simp [covered_nil]
  · rw [← merge_intervals_covered l]
    exact volume_covered_sep _ (merge_intervals_sep l) (merge_intervals_valid l hv)

theorem removePieces_covered (r e : Interval) (he : e.1 ≤ e.2) (hr : r.1 ≤ r.2) :
    covered (removePieces r e) =
      Set.Ico (e.1 : ℝ) (e.2 : ℝ) \ Set.Ico (r.1 : ℝ) (r.2 : ℝ) := by
  have he' : (e.1 : ℝ) ≤ (e.2 : ℝ) := by exact_mod_cast he
  have hr' : (r.1 : ℝ) ≤ (r.2 : ℝ) := by exact_mod_cast hr
  unfold removePieces
  split_ifs with h1 h2 h3 h4 h5
  · obtain ⟨ha, hb⟩ := h1
    have ha' : (r.1 : ℝ) ≤ (e.1 : ℝ) := by exact_mod_cast ha
    have hb' : (e.2 : ℝ) ≤ (r.2 : ℝ) := by exact_mod_cast hb
    rw [covered_nil]
    ext x
    simp only [Set.mem_empty_iff_false, Set.mem_diff, Set.mem_Ico, false_iff, not_and, not_not]
    rintro ⟨hx1, hx2⟩ hn
    exact hn (by linarith) (by linarith)
  · have h2' : (e.2 : ℝ) ≤ (r.1 : ℝ) ∨ (r.2 : ℝ) ≤ (e.1 : ℝ) := by
      rcases h2 with h | h
      · exact Or.inl (by exact_mod_cast h)
      · exact Or.inr (by exact_mod_cast h)
    rw [covered_cons, covered_nil, Set.union_empty]
    ext x
    simp only [Set.mem_diff, Set.mem_Ico]
    constructor
    · rintro ⟨hx1, hx2⟩
      refine ⟨⟨hx1, hx2⟩, ?_⟩
      rintro ⟨hc1, hc2⟩
      rcases h2' with h | h <;> linarith
    · rintro ⟨hx, _⟩
      exact hx
  · obtain ⟨ha, hb⟩ := h3
    have ha' : (e.1 : ℝ) < (r.1 : ℝ) := by exact_mod_cast ha
    have hb' : (r.2 : ℝ) < (e.2 : ℝ) := by exact_mod_cast hb
    rw [covered_cons, covered_cons, covered_nil, Set.union_empty]
    ext x
    simp only [Set.mem_union, Set.mem_diff, Set.mem_Ico]
    constructor
    · rintro (⟨hx1, hx2⟩ | ⟨hx1, hx2⟩)
      · exact ⟨⟨hx1, by linarith⟩, fun hc => by linarith [hc.1]⟩
      · exact ⟨⟨by linarith, hx2⟩, fun hc => by linarith [hc.2]⟩
    · rintro ⟨⟨hx1, hx2⟩, hn⟩
      rcases lt_or_le x (r.1 : ℝ) with hxc | hxc
      · exact Or.inl ⟨hx1, hxc⟩
      · have hd : (r.2 : ℝ) ≤ x := by
          by_contra hdx
          push_neg at hdx
          exact hn ⟨hxc, hdx⟩
        exact Or.inr ⟨hd, hx2⟩
  · obtain ⟨ha, hb⟩ := h4
    have hbr : e.2 ≤ r.2 := by
      rcases not_and_or.mp h3 with h | h
      · exact absurd ha h
      · exact le_of_not_lt h
    have ha' : (e.1 : ℝ) < (r.1 : ℝ) := by exact_mod_cast ha
    have hb' : (r.1 : ℝ) < (e.2 : ℝ) := by exact_mod_cast hb
    have hbr' : (e.2 : ℝ) ≤ (r.2 : ℝ) := by exact_mod_cast hbr
    rw [covered_cons, covered_nil, Set.union_empty]
    ext x
    simp only [Set.mem_diff, Set.mem_Ico]
    constructor
    · rintro ⟨hx1, hx2⟩
      exact ⟨⟨hx1, by linarith⟩, fun hc => by linarith [hc.1]⟩
    · rintro ⟨⟨hx1, hx2⟩, hn⟩
      refine ⟨hx1, ?_⟩
      by_contra hxc
      push_neg at hxc
      exact hn ⟨hxc, by linarith⟩
  · obtain ⟨ha, hb⟩ := h5
    have hp2 : r.1 < e.2 ∧ e.1 < r.2 := by
      rcases not_or.mp h2 with ⟨hA, hB⟩
      exact ⟨lt_of_not_le hA, lt_of_not_le hB⟩
    have hca : r.1 ≤ e.1 := by
      rcases not_and_or.mp h4 with h | h
      · exact le_of_not_lt h
      · exact absurd hp2.1 (by simpa using h)
    have ha' : (e.1 : ℝ) < (r.2 : ℝ) := by exact_mod_cast ha
    have hb' : (r.2 : ℝ) < (e.2 : ℝ) := by exact_mod_cast hb
    have hca' : (r.1 : ℝ) ≤ (e.1 : ℝ) := by exact_mod_cast hca
    rw [covered_cons, covered_nil, Set.union_empty]
    ext x
    simp only [Set.mem_diff, Set.mem_Ico]
    constructor
    · rintro ⟨hx1, hx2⟩
      exact ⟨⟨by linarith, hx2⟩, fun hc => by linarith [hc.2]⟩
    · rintro ⟨⟨hx1, hx2⟩, hn⟩
      refine ⟨?_, hx2⟩
      by_contra hxd
      push_neg at hxd
      exact hn ⟨by linarith, hxd⟩
  · exfalso
    rcases not_or.mp h2 with ⟨hA, hB⟩
    have hA' : r.1 < e.2 := lt_of_not_le hA
    have hB' : e.1 < r.2 := lt_of_not_le hB
    rcases lt_or_le e.1 r.1 with hx | hx
    · rcases not_and_or.mp h4 with h | h
      · exact h hx
      · exact h hA'
    · rcases not_and_or.mp h1 with h | h
      · exact h hx
      · rcases not_and_or.mp h5 with h' | h'
        · exact h' hB'
        · exact h' (lt_of_not_le h)

theorem flatMap_removePieces_covered (l : List Interval) (r : Interval)
    (hl : ∀ p ∈ l, p.1 ≤ p.2) (hr : r.1 ≤ r.2) :
    covered (l.flatMap (removePieces r)) =
      covered l \ Set.Ico (r.1 : ℝ) (r.2 : ℝ) := by
  induction l with
  | nil => simp [covered_nil]
  | cons e t ih =>
    rw [List.flatMap_cons, covered_append,
      removePieces_covered r e (hl e (List.mem_cons_self _ _)) hr,
      covered_cons, Set.union_diff_distrib,
      ih (fun q hq => hl q (List.mem_cons_of_mem _ hq))]

theorem remove_interval_covered (l : List Interval) (r : Interval)
    (hl : ∀ p ∈ l, p.1 ≤ p.2) (hr : r.1 ≤ r.2) :
    covered (remove_interval l r) =
      covered l \ Set.Ico (r.1 : ℝ) (r.2 : ℝ) := by
  cases l with
  | nil => simp [remove_interval, covered_nil]
  | cons a t =>
    show covered (merge_intervals ((a :: t).flatMap (removePieces r))) = _
    rw [merge_intervals_covered, flatMap_removePieces_covered _ _ hl hr]

/-- The list of member-wise intersections of `l` with the interval `r`.
Its `calculate_union_height` is the claim's "length of the overlap of the
removed interval with the union of the set": `clipped_covered` below
certifies that it covers exactly `covered l ∩ [r.1, r.2)`. -/
def clipped (l : List Interval) (r : Interval) : List Interval :=
  l.filterMap (fun p =>
    if max p.1 r.1 ≤ min p.2 r.2 then some (max p.1 r.1, min p.2 r.2) else none)

theorem clipped_valid (l : List Interval) (r : Interval) :
    ∀ q ∈ clipped l r, q.1 ≤ q.2 := by
  intro q hq
  rcases List.mem_filterMap.mp hq with ⟨p, _, hpq⟩
  split_ifs at hpq with hc
  obtain rfl := Option.some_injective _ hpq
  exact hc

theorem clipped_covered (l : List Interval) (r : Interval) :
    covered (clipped l r) = covered l ∩ Set.Ico (r.1 : ℝ) (r.2 : ℝ) := by
  induction l with
  | nil => simp [clipped, covered_nil]
  | cons p t ih =>
    unfold clipped
    rw [List.filterMap_cons]
    split_ifs with hc
    · rw [covered_cons]
      show _ ∪ covered (clipped t r) = _
      rw [ih, covered_cons, Set.union_inter_distrib_right]
      congr 1
      have : ((max p.1 r.1 : ℚ) : ℝ) = max (p.1 : ℝ) (r.1 : ℝ) := by push_cast; rfl
      have h2 : ((min p.2 r.2 : ℚ) : ℝ) = min (p.2 : ℝ) (r.2 : ℝ) := by push_cast; rfl
      rw [show (((max p.1 r.1, min p.2 r.2) : Interval).1 : ℝ) = ((max p.1 r.1 : ℚ) : ℝ) from rfl,
        show (((max p.1 r.1, min p.2 r.2) : Interval).2 : ℝ) = ((min p.2 r.2 : ℚ) : ℝ) from rfl,
        this, h2, Set.Ico_inter_Ico]
    · show covered (clipped t r) = _
      rw [ih, covered_cons, Set.union_inter_distrib_right]
      have hmm : min (p.2 : ℝ) (r.2 : ℝ) < max (p.1 : ℝ) (r.1 : ℝ) := by
        have : (min p.2 r.2 : ℚ) < (max p.1 r.1 : ℚ) := lt_of_not_le hc
        have hcast : ((min p.2 r.2 : ℚ) : ℝ) < ((max p.1 r.1 : ℚ) : ℝ) := by exact_mod_cast this
        calc min (p.2 : ℝ) (r.2 : ℝ) = ((min p.2 r.2 : ℚ) : ℝ) := by push_cast; rfl
          _ < ((max p.1 r.1 : ℚ) : ℝ) := hcast
          _ = max (p.1 : ℝ) (r.1 : ℝ) := by push_cast; rfl
      have hempty : Set.Ico (p.1 : ℝ) (p.2 : ℝ) ∩ Set.Ico (r.1 : ℝ) (r.2 : ℝ) = ∅ := by
        rw [Set.Ico_inter_Ico]
        exact Set.Ico_eq_empty (not_lt_of_le (le_of_lt hmm))
      rw [hempty, Set.empty_union]

/-- C5: for valid interval lists `S` and a valid interval `I`,
`remove_interval` removes exactly the half-open range of `I`: the covered
point-set of the result is `covered S` minus `[I.1, I.2)`; the covered set
of the member-wise overlap list `clipped S I` is `covered S ∩ [I.1, I.2)`;
and the union height after removal drops by exactly the length of that
overlap (proved via the Lebesgue measure of the covered sets). -/
theorem claim_C5_remove_interval_exact (S : List Interval) (I : Interval)
    (hS : ∀ p ∈ S, p.1 ≤ p.2) (hI : I.1 ≤ I.2) :
    covered (remove_interval S I) = covered S \ Set.Ico (I.1 : ℝ) (I.2 : ℝ) ∧
    covered (clipped S I) = covered S ∩ Set.Ico (I.1 : ℝ) (I.2 : ℝ) ∧
    calculate_union_height (remove_interval S I) =
      calculate_union_height S - calculate_union_height (clipped S I) := by
  refine ⟨remove_interval_covered S I hS hI, clipped_covered S I, ?_⟩
  have hvS := volume_covered_eq_height S hS
  have hvR := volume_covered_eq_height _ (remove_interval_valid S I hS)
  have hvC := volume_covered_eq_height _ (clipped_valid S I)
  have hpart : covered S = covered (remove_interval S I) ∪ covered (clipped S I) := by
    rw [remove_interval_covered S I hS hI, clipped_covered]
    exact (Set.diff_union_inter _ _).symm
  have hdisj : Disjoint (covered (remove_interval S I)) (covered (clipped S I)) := by
    rw [remove_interval_covered S I hS hI, clipped_covered]
    exact Set.disjoint_sdiff_inter
  have hvol : MeasureTheory.volume (covered S) =
      MeasureTheory.volume (covered (remove_interval S I)) +
        MeasureTheory.volume (covered (clipped S I)) := by
    rw [hpart]
    exact MeasureTheory.measure_union hdisj (covered_measurable _)
  rw [hvS, hvR, hvC] at hvol
  have h1 : (0 : ℝ) ≤ ((calculate_union_height (remove_interval S I) : ℚ) : ℝ) := by
    exact_mod_cast calculate_union_height_nonneg _ (remove_interval_valid S I hS)
  have h2 : (0 : ℝ) ≤ ((calculate_union_height (clipped S I) : ℚ) : ℝ) := by
    exact_mod_cast calculate_union_height_nonneg _ (clipped_valid S I)
  have h3 : (0 : ℝ) ≤ ((calculate_union_height S : ℚ) : ℝ) := by
    exact_mod_cast calculate_union_height_nonneg _ hS
  rw [← ENNReal.ofReal_add h1 h2] at hvol
  have hreal := (ENNReal.ofReal_eq_ofReal_iff h3 (by linarith)).mp hvol
  have hq : calculate_union_height S =
      calculate_union_height (remove_interval S I) +
        calculate_union_height (clipped S I) := by exact_mod_cast hreal
  linarith

/-- C5 witness: removal of (3,5) from [(0,4), (2,10)] splits and trims as
described; heights: 8 = 10 - 2. -/
theorem claim_C5_witness :
    covered (remove_interval [((0 : ℚ), (4 : ℚ)), (2, 10)] (3, 5)) =
      covered [((0 : ℚ), (4 : ℚ)), (2, 10)] \
        Set.Ico ((((3 : ℚ), (5 : ℚ)) : Interval).1 : ℝ) ((((3 : ℚ), (5 : ℚ)) : Interval).2 : ℝ) ∧
    covered (clipped [((0 : ℚ), (4 : ℚ)), (2, 10)] (3, 5)) =
      covered [((0 : ℚ), (4 : ℚ)), (2, 10)] ∩
        Set.Ico ((((3 : ℚ), (5 : ℚ)) : Interval).1 : ℝ) ((((3 : ℚ), (5 : ℚ)) : Interval).2 : ℝ) ∧
    calculate_union_height (remove_interval [((0 : ℚ), (4 : ℚ)), (2, 10)] (3, 5)) =
      calculate_union_height [((0 : ℚ), (4 : ℚ)), (2, 10)] -
        calculate_union_height (clipped [((0 : ℚ), (4 : ℚ)), (2, 10)] (3, 5)) :=
  claim_C5_remove_interval_exact [((0 : ℚ), (4 : ℚ)), (2, 10)] (3, 5)
    (by intro p hp; rcases List.mem_cons.mp hp with rfl | hp'; · norm_num
        rcases List.mem_cons.mp hp' with rfl | hp''; · norm_num
        · exact absurd hp'' (by simp))
    (by norm_num)

end VoidShelf
